import Mathlib

/-!
Shallow embedding of the sharded buffer cache in `lab_lock/kernel/bio.c`
(xv6 lock lab). Machine `uint` values are modelled as `Nat` with explicit
`% 2^32` wraparound where the C performs modular arithmetic.
-/

namespace Bio

/-- `NBUCKET` from bio.c line 26. -/
def NBUCKET : Nat := 13

/-- Modulus of the C `uint` type (32-bit unsigned). -/
def UINTMOD : Nat := 2 ^ 32

/-- `HASH(x)` from bio.c line 27: `(x) % NBUCKET`. -/
def HASH (x : Nat) : Nat := x % NBUCKET

/-- One `struct buf` slot: identity, validity, reference count and
recency timestamp.  `refcnt` and `timestamp` are C `uint` values,
kept as `Nat < 2^32` by performing every update modulo `UINTMOD`.
The byte content and the lock words are not part of the claims'
data; the sleep-lock state is passed explicitly to the operations
that test it. -/
structure Buf where
  dev : Nat
  blockno : Nat
  valid : Bool
  refcnt : Nat
  timestamp : Nat
deriving DecidableEq, Repr, Inhabited

/-- The shard table `map`: shard `i`'s intrusive list `map.head[i].next, ...`
is modelled as the `i`-th list of slots, in list order (head first). -/
abbrev BCache := List (List Buf)

/-- Shard `h`'s list, i.e. the chain hanging off `map.head[h]`. -/
def shard (s : BCache) (h : Nat) : List Buf := s.getD h []

/-- The hit scan of bget (bio.c lines 94-101): walk shard `h`'s list
looking for a slot whose `dev` and `blockno` match; return the position
of the first match. -/
def hitFind (dev blockno : Nat) : List Buf → Option Nat
  | [] => none
  | b :: rest =>
    if b.dev = dev ∧ b.blockno = blockno then some 0
    else (hitFind dev blockno rest).map (· + 1)

/-- The local LRU scan of bget (bio.c lines 104-120): `min` starts at
`0xffffffff`; a slot is recorded as the candidate `empty` when
`refcnt == 0 && timestamp < min`.  Returns the position of the final
candidate, walking the list in order. -/
def lruScanAux : List Buf → Nat → Nat → Option Nat → Option Nat
  | [], _, _, empty => empty
  | b :: rest, pos, mn, empty =>
    if b.refcnt = 0 ∧ b.timestamp < mn then
      lruScanAux rest (pos + 1) b.timestamp (some pos)
    else
      lruScanAux rest (pos + 1) mn empty

/-- Entry point of the local LRU scan: `uint min = 0xffffffff` (bio.c 104). -/
def lruScan (l : List Buf) : Option Nat := lruScanAux l 0 (UINTMOD - 1) none

/-- The per-shard scan of the steal loop (bio.c lines 132-137): first slot
with `refcnt == 0`, by position. -/
def firstFree : List Buf → Option Nat
  | [] => none
  | b :: rest => if b.refcnt = 0 then some 0 else (firstFree rest).map (· + 1)

/-- The steal loop of bget (bio.c lines 127-139): iterate shard indices in
the fixed order given, skip `h`, and stop at the first shard holding a free
slot.  Returns (shard index, position) of the stolen slot. -/
def stealFind (s : BCache) (h : Nat) : List Nat → Option (Nat × Nat)
  | [] => none
  | i :: rest =>
    if i = h then stealFind s h rest
    else
      match firstFree (shard s i) with
      | some p => some (i, p)
      | none => stealFind s h rest

/-- The `EVICT` assignment (bio.c lines 152-155): overwrite identity,
clear `valid`, set `refcnt = 1`. -/
def evictAssign (dev blockno : Nat) (b : Buf) : Buf :=
  { b with dev := dev, blockno := blockno, valid := false, refcnt := 1 }

/-- Result of `bget`: a normal return carries the new cache state, the home
shard index and the position in that shard of the returned slot;
`exhausted` is the `panic("bget: no buffers")` of bio.c line 140, carrying
the cache state at the moment of the panic. -/
inductive BGetResult where
  | ok (s : BCache) (h : Nat) (pos : Nat)
  | exhausted (s : BCache)
deriving DecidableEq, Repr

/-- `bget` (bio.c lines 85-159).  The three paths:
hit (increment `refcnt` of the matching slot), local eviction
(LRU candidate of the home shard), steal (unlink the first free slot of the
first other shard from its list, push it on the home shard's head —
bio.c lines 143-147 — then run the `EVICT` assignment on it). -/
def bget (dev blockno : Nat) (s : BCache) : BGetResult :=
  let h := HASH blockno
  let lh := shard s h
  match hitFind dev blockno lh with
  | some p =>
    let b := lh.getD p default
    let b' := { b with refcnt := (b.refcnt + 1) % UINTMOD }
    .ok (s.set h (lh.set p b')) h p
  | none =>
    match lruScan lh with
    | some p =>
      let b' := evictAssign dev blockno (lh.getD p default)
      .ok (s.set h (lh.set p b')) h p
    | none =>
      match stealFind s h (List.range NBUCKET) with
      | some (i, p) =>
        let stolen := shard s i |>.getD p default
        let s1 := s.set i ((shard s i).eraseIdx p)
        let s2 := s1.set h (evictAssign dev blockno stolen :: shard s1 h)
        .ok s2 h 0
      | none => .exhausted s

/-- `bpin` (bio.c lines 206-212): unconditional `refcnt++` under the shard
lock, with `uint` wraparound. -/
def bpin (b : Buf) : Buf := { b with refcnt := (b.refcnt + 1) % UINTMOD }

/-- `bunpin` (bio.c lines 214-220): unconditional `refcnt--` under the shard
lock, with `uint` wraparound; no timestamp update. -/
def bunpin (b : Buf) : Buf :=
  { b with refcnt := (b.refcnt + (UINTMOD - 1)) % UINTMOD }

/-- `brelse` (bio.c lines 186-204) acting on the released slot.  `holding`
is whether the caller holds the slot's sleep lock (`holdingsleep`); `ticks`
is the current value of the global tick counter.  Panics (error) when the
lock is not held; otherwise decrements `refcnt` and, exactly when the
decremented count is 0, stamps `timestamp` with `ticks`. -/
def brelse (holding : Bool) (ticks : Nat) (b : Buf) : Except String Buf :=
  if ¬ holding then .error "brelse"
  else
    let r := (b.refcnt + (UINTMOD - 1)) % UINTMOD
    if r = 0 then .ok { b with refcnt := r, timestamp := ticks }
    else .ok { b with refcnt := r }

/-- `bwrite` (bio.c lines 176-182): panic unless the sleep lock is held,
else issue the device write (which does not change the slot's metadata). -/
def bwrite (holding : Bool) (b : Buf) : Except String Buf :=
  if ¬ holding then .error "bwrite" else .ok b

/-! ### Initialization (`binit`, bio.c lines 44-80) -/

/-- A zero-initialized `struct buf` of the global array `bcache.buf`. -/
def buf0 : Buf := { dev := 0, blockno := 0, valid := false, refcnt := 0, timestamp := 0 }

/-- The shard table before any slot is linked: every `map.head[i].next` is null. -/
def initMap : BCache := List.replicate NBUCKET []

/-- Head insertion into shard `i` (bio.c lines 64-65):
`b->next = map.head[i].next; map.head[i].next = b`. -/
def pushShard (s : BCache) (i : Nat) (b : Buf) : BCache := s.set i (b :: shard s i)

/-- The distribution loop of `binit` (bio.c lines 58-67), translated
statement for statement.  `i` is the shard index of the outer loop;
`placed` counts slots already linked (the pointer `b - bcache.buf`).
The inner loop's condition is the source's `i < NBUF / NBUCKET`
(which reads `i`, not the inner counter `j`); when it holds, the body
returns if all `nbuf` slots are placed and otherwise links the next slot
into shard `i`; when it fails, the outer loop advances
`i = (i + 1) % NBUCKET`.  `fuel` bounds the number of iterations;
`none` means the loop did not finish within `fuel` steps. -/
def binitLoop (nbuf : Nat) : Nat → Nat → Nat → BCache → Option BCache
  | 0, _, _, _ => none
  | fuel + 1, i, placed, s =>
    if i < nbuf / NBUCKET then
      if nbuf ≤ placed then some s
      else binitLoop nbuf fuel i (placed + 1) (pushShard s i buf0)
    else binitLoop nbuf fuel ((i + 1) % NBUCKET) placed s

/-- `binit` (bio.c lines 44-80): run the distribution loop from
`b = bcache.buf`, `i = 0` on the empty shard table. -/
def binit (nbuf fuel : Nat) : Option BCache := binitLoop nbuf fuel 0 0 initMap

/-! ### Lock and I/O traces

Each operation is mapped to the sequence of lock and device events it
performs, in program order, so that the lock discipline (no sleep-lock
acquisition and no device I/O while a spinlock is held) can be stated. -/

/-- Lock and device events, in program order. -/
inductive Ev where
  | acq (i : Nat)
  | rel (i : Nat)
  | acqB
  | relB
  | acqT
  | relT
  | acqSleep
  | relSleep
  | diskRW
deriving DecidableEq, Repr

/-- Spinlock count contribution of an event: `map.lock[i]`, `bcache.lock`
and `tickslock` are spinlocks; sleep-lock events and device I/O are not. -/
def spinDelta : Ev → Int
  | .acq _ => 1
  | .rel _ => -1
  | .acqB => 1
  | .relB => -1
  | .acqT => 1
  | .relT => -1
  | _ => 0

/-- Walk a trace keeping the number `c` of spinlocks currently held;
fail (`none`) if a sleep-lock acquisition or a device I/O happens while
`c ≠ 0`; otherwise return the final count. -/
def runTrace : Int → List Ev → Option Int
  | c, [] => some c
  | c, .acqSleep :: rest => if c = 0 then runTrace c rest else none
  | c, .diskRW :: rest => if c = 0 then runTrace c rest else none
  | c, e :: rest => runTrace (c + spinDelta e) rest

/-- Events of the steal loop (bio.c lines 127-139): shard `h` is skipped
without touching its lock; a shard whose scan fails is released
immediately; the loop stops inside the first shard holding a free slot,
with that shard's lock still held (it is released at `STEAL`). -/
def stealTrace (s : BCache) (h : Nat) : List Nat → List Ev
  | [] => []
  | i :: rest =>
    if i = h then stealTrace s h rest
    else
      match firstFree (shard s i) with
      | some _ => [.acq i]
      | none => .acq i :: .rel i :: stealTrace s h rest

/-- Events of `bget` (bio.c lines 85-159).  Hit and local-eviction paths
release the home shard lock before `acquiresleep`; the steal path releases
the source shard's lock and `bcache.lock` at `STEAL`, then the home shard
lock at `EVICT`, before `acquiresleep`.  The panic path ends the trace at
`panic("bget: no buffers")`. -/
def bgetTrace (dev blockno : Nat) (s : BCache) : List Ev :=
  let h := HASH blockno
  let lh := shard s h
  Ev.acq h ::
    match hitFind dev blockno lh with
    | some _ => [.rel h, .acqSleep]
    | none =>
      match lruScan lh with
      | some _ => [.rel h, .acqSleep]
      | none =>
        Ev.acqB :: (stealTrace s h (List.range NBUCKET) ++
          match stealFind s h (List.range NBUCKET) with
          | some (i, _) => [.rel i, .relB, .rel h, .acqSleep]
          | none => [])

/-- Events of `brelse` (bio.c lines 186-204): panic before any event when
the sleep lock is not held; otherwise release the sleep lock, then under
the shard lock take `tickslock` exactly when the decrement reaches 0. -/
def brelseTrace (holding : Bool) (b : Buf) : List Ev :=
  if ¬ holding then []
  else
    Ev.relSleep :: Ev.acq (HASH b.blockno) ::
      ((if (b.refcnt + (UINTMOD - 1)) % UINTMOD = 0 then [Ev.acqT, Ev.relT] else []) ++
        [Ev.rel (HASH b.blockno)])

/-- Events of `bwrite` (bio.c lines 176-182): panic before any event when
the sleep lock is not held, else one device write. -/
def bwriteTrace (holding : Bool) : List Ev :=
  if ¬ holding then [] else [Ev.diskRW]

/-- Events of `bread` (bio.c lines 162-173): the events of `bget`, then one
device read when the returned slot is not valid. -/
def breadTrace (dev blockno : Nat) (s : BCache) : List Ev :=
  bgetTrace dev blockno s ++
    match bget dev blockno s with
    | .ok s' h p => if ((shard s' h).getD p default).valid then [] else [.diskRW]
    | .exhausted _ => []

/-! ### Concrete cache states used to instantiate the theorems -/

/-- The shard table produced by `binit` for a 30-slot pool: every slot in
shard 0, the other twelve shards empty. -/
def s30 : BCache := List.replicate 30 buf0 :: List.replicate 12 []

/-- A slot with one holder, about to be released/unpinned. -/
def bRel : Buf := ⟨3, 7, true, 1, 5⟩

/-- Shard 0 holds a single evictable slot whose timestamp equals the
sentinel `0xffffffff`; all other shards are empty. -/
def sSentinel : BCache := [Buf.mk 1 1 true 0 (UINTMOD - 1)] :: List.replicate 12 []

/-- Shard 0 holds an evictable slot with sentinel timestamp and a pinned
slot; all other shards are empty. -/
def sSentinel2 : BCache :=
  [Buf.mk 1 1 true 0 (UINTMOD - 1), Buf.mk 2 2 true 5 3] :: List.replicate 12 []

/-- A pool whose only slot is pinned: admission must fail. -/
def sPinned : BCache := [Buf.mk 9 9 true 1 0] :: List.replicate 12 []

/-- A second all-pinned pool, for the atomicity instance. -/
def sPinned2 : BCache := [Buf.mk 4 4 true 2 0] :: List.replicate 12 []

/-- An idle evictable slot. -/
def bFree : Buf := ⟨0, 0, false, 0, 7⟩

/-- Shard 0 holds two evictable slots with distinct timestamps. -/
def sLocal : BCache := [Buf.mk 1 2 true 0 9, Buf.mk 3 4 true 0 3] :: List.replicate 12 []

/-- Shard 0 is fully pinned while shard 1 holds an evictable slot: a lookup
hashing to shard 0 must steal from shard 1. -/
def sSteal : BCache :=
  [Buf.mk 1 2 true 1 9] :: [Buf.mk 5 6 true 0 4] :: List.replicate 11 []

/-- The cache produced by `bget 7 0 sSteal`: the slot stolen from shard 1
re-identified and linked at the head of shard 0. -/
def rSteal : BCache :=
  [Buf.mk 7 0 false 1 4, Buf.mk 1 2 true 1 9] :: List.replicate 12 []

/-! ### Supporting lemmas -/

theorem shard_set_self {s : BCache} {h : Nat} (hlt : h < s.length) (l : List Buf) :
    shard (s.set h l) h = l := by
  simp [shard, List.getD_eq_getElem?_getD, List.getElem?_set_eq_of_lt _ hlt]

theorem shard_set_ne {s : BCache} {i j : Nat} (hij : i ≠ j) (l : List Buf) :
    shard (s.set i l) j = shard s j := by
  simp [shard, List.getD_eq_getElem?_getD, List.getElem?_set_ne hij]

theorem shard_eq_getElem {s : BCache} {j : Nat} (hj : j < s.length) :
    shard s j = s[j] := by
  simp [shard, List.getD_eq_getElem?_getD, List.getElem?_eq_getElem hj]

theorem getD_mem {l : List Buf} {p : Nat} (hp : p < l.length) :
    l.getD p default ∈ l := by
  rw [List.getD_eq_getElem?_getD, List.getElem?_eq_getElem hp]
  exact List.getElem_mem hp

theorem hitFind_none_iff {dev blockno : Nat} {l : List Buf} :
    hitFind dev blockno l = none ↔
      ∀ b ∈ l, ¬(b.dev = dev ∧ b.blockno = blockno) := by
  induction l with
  | nil => simp [hitFind]
  | cons b rest ih =>
    by_cases hb : b.dev = dev ∧ b.blockno = blockno
    · simp [hitFind, hb]
    · simp only [hitFind, if_neg hb, Option.map_eq_none', ih, List.mem_cons]
      constructor
      · intro hr c hc
        rcases hc with rfl | hc'
        · exact hb
        · exact hr c hc'
      · intro hr c hc
        exact hr c (Or.inr hc)

theorem hitFind_some_spec {dev blockno : Nat} {l : List Buf} {p : Nat}
    (h : hitFind dev blockno l = some p) :
    p < l.length ∧ (l.getD p default).dev = dev ∧
      (l.getD p default).blockno = blockno := by
  induction l generalizing p with
  | nil => simp [hitFind] at h
  | cons b rest ih =>
    by_cases hb : b.dev = dev ∧ b.blockno = blockno
    · rw [hitFind, if_pos hb] at h
      cases h
      simpa using hb
    · rw [hitFind, if_neg hb] at h
      rw [Option.map_eq_some'] at h
      obtain ⟨q, hq, rfl⟩ := h
      obtain ⟨h1, h2, h3⟩ := ih hq
      exact ⟨by simpa using h1, by simpa using h2, by simpa using h3⟩

theorem firstFree_none_iff {l : List Buf} :
    firstFree l = none ↔ ∀ b ∈ l, b.refcnt ≠ 0 := by
  induction l with
  | nil => simp [firstFree]
  | cons b rest ih =>
    by_cases hb : b.refcnt = 0
    · simp [firstFree, hb]
    · simp [firstFree, hb, Option.map_eq_none', ih]

theorem firstFree_some_spec {l : List Buf} {p : Nat}
    (h : firstFree l = some p) :
    p < l.length ∧ (l.getD p default).refcnt = 0 ∧
      ∀ q, q < p → (l.getD q default).refcnt ≠ 0 := by
  induction l generalizing p with
  | nil => simp [firstFree] at h
  | cons b rest ih =>
    by_cases hb : b.refcnt = 0
    · rw [firstFree, if_pos hb] at h
      cases h
      refine ⟨by simp, by simpa using hb, ?_⟩
      intro q hq
      omega
    · rw [firstFree, if_neg hb] at h
      rw [Option.map_eq_some'] at h
      obtain ⟨q, hq, rfl⟩ := h
      obtain ⟨h1, h2, h3⟩ := ih hq
      refine ⟨by simpa using h1, by simpa using h2, ?_⟩
      intro r hr
      cases r with
      | zero => simpa using hb
      | succ r' => simpa using h3 r' (by omega)

theorem lruScanAux_some_ne_none {l : List Buf} :
    ∀ {pos mn q : Nat}, lruScanAux l pos mn (some q) ≠ none := by
  induction l with
  | nil => intro pos mn q h; cases h
  | cons b rest ih =>
    intro pos mn q
    by_cases hb : b.refcnt = 0 ∧ b.timestamp < mn
    · rw [lruScanAux, if_pos hb]
      exact ih
    · rw [lruScanAux, if_neg hb]
      exact ih

theorem lruScanAux_none_iff {l : List Buf} :
    ∀ {pos mn : Nat}, lruScanAux l pos mn none = none ↔
      ∀ b ∈ l, ¬(b.refcnt = 0 ∧ b.timestamp < mn) := by
  induction l with
  | nil => simp [lruScanAux]
  | cons b rest ih =>
    intro pos mn
    by_cases hb : b.refcnt = 0 ∧ b.timestamp < mn
    · rw [lruScanAux, if_pos hb]
      constructor
      · intro h
        exact absurd h lruScanAux_some_ne_none
      · intro h
        exact absurd hb (h b (by simp))
    · rw [lruScanAux, if_neg hb]
      rw [ih]
      constructor
      · intro h c hc
        rcases List.mem_cons.mp hc with rfl | hc'
        · exact hb
        · exact h c hc'
      · intro h c hc
        exact h c (List.mem_cons.mpr (Or.inr hc))

theorem lruScan_none_iff {l : List Buf} :
    lruScan l = none ↔
      ∀ b ∈ l, b.refcnt = 0 → ¬ b.timestamp < UINTMOD - 1 := by
  rw [lruScan, lruScanAux_none_iff]
  constructor
  · intro h b hb hrc hts
    exact h b hb ⟨hrc, hts⟩
  · intro h b hb hand
    exact h b hb hand.1 hand.2

theorem lruScanAux_some_spec {l : List Buf} :
    ∀ {pos mn : Nat} {empty : Option Nat} {p : Nat},
    lruScanAux l pos mn empty = some p →
    (empty = some p ∧ ∀ b ∈ l, b.refcnt = 0 → mn ≤ b.timestamp) ∨
    (∃ k, k < l.length ∧ p = pos + k ∧ (l.getD k default).refcnt = 0 ∧
      (l.getD k default).timestamp < mn ∧
      ∀ b ∈ l, b.refcnt = 0 → (l.getD k default).timestamp ≤ b.timestamp) := by
  induction l with
  | nil =>
    intro pos mn empty p h
    exact Or.inl ⟨h, by simp⟩
  | cons b rest ih =>
    intro pos mn empty p h
    by_cases hb : b.refcnt = 0 ∧ b.timestamp < mn
    · rw [lruScanAux, if_pos hb] at h
      rcases ih h with ⟨he, hall⟩ | ⟨k, hk, hpk, hrc, hts, hmin⟩
      · cases he
        refine Or.inr ⟨0, by simp, by omega, by simpa using hb.1, by simpa using hb.2, ?_⟩
        intro c hc hrc
        rcases List.mem_cons.mp hc with rfl | hc'
        · simp
        · simpa using hall c hc' hrc
      · refine Or.inr ⟨k + 1, by simpa using hk, by omega, by simpa using hrc, ?_, ?_⟩
        · simp only [List.getD_cons_succ]
          omega
        · intro c hc hrc'
          rcases List.mem_cons.mp hc with rfl | hc'
          · simp only [List.getD_cons_succ]
            omega
          · simpa using hmin c hc' hrc'
    · rw [lruScanAux, if_neg hb] at h
      rcases ih h with ⟨he, hall⟩ | ⟨k, hk, hpk, hrc, hts, hmin⟩
      · refine Or.inl ⟨he, ?_⟩
        intro c hc hrc
        rcases List.mem_cons.mp hc with rfl | hc'
        · omega
        · exact hall c hc' hrc
      · refine Or.inr ⟨k + 1, by simpa using hk, by omega, by simpa using hrc, ?_, ?_⟩
        · simpa using hts
        · intro c hc hrc'
          rcases List.mem_cons.mp hc with rfl | hc'
          · simp only [List.getD_cons_succ]
            omega
          · simpa using hmin c hc' hrc'

theorem lruScan_some_spec {l : List Buf} {p : Nat} (h : lruScan l = some p) :
    p < l.length ∧ (l.getD p default).refcnt = 0 ∧
      (l.getD p default).timestamp < UINTMOD - 1 ∧
      ∀ b ∈ l, b.refcnt = 0 → (l.getD p default).timestamp ≤ b.timestamp := by
  rcases lruScanAux_some_spec h with ⟨he, _⟩ | ⟨k, hk, hpk, hrc, hts, hmin⟩
  · cases he
  · have hp : p = k := by omega
    subst hp
    exact ⟨hk, hrc, hts, hmin⟩

theorem stealFind_none_iff {s : BCache} {h : Nat} {order : List Nat} :
    stealFind s h order = none ↔
      ∀ i ∈ order, i ≠ h → firstFree (shard s i) = none := by
  induction order with
  | nil => simp [stealFind]
  | cons a rest ih =>
    by_cases hah : a = h
    · subst hah
      rw [stealFind, if_pos rfl, ih]
      constructor
      · intro hr i hi hih
        rcases List.mem_cons.mp hi with rfl | hi'
        · exact absurd rfl hih
        · exact hr i hi' hih
      · intro hr i hi hih
        exact hr i (List.mem_cons.mpr (Or.inr hi)) hih
    · rw [stealFind, if_neg hah]
      cases hff : firstFree (shard s a) with
      | some p =>
        simp only [reduceCtorEq, false_iff]
        intro hr
        exact absurd (hr a (by simp) hah) (by simp [hff])
      | none =>
        rw [ih]
        constructor
        · intro hr i hi hih
          rcases List.mem_cons.mp hi with rfl | hi'
          · exact hff
          · exact hr i hi' hih
        · intro hr i hi hih
          exact hr i (List.mem_cons.mpr (Or.inr hi)) hih

theorem stealFind_some_spec {s : BCache} {h : Nat} {order : List Nat} {i p : Nat}
    (hs : stealFind s h order = some (i, p)) :
    i ∈ order ∧ i ≠ h ∧ firstFree (shard s i) = some p ∧
      ∃ pre post, order = pre ++ i :: post ∧
        ∀ j ∈ pre, j ≠ h → firstFree (shard s j) = none := by
  induction order with
  | nil => simp [stealFind] at hs
  | cons a rest ih =>
    by_cases hah : a = h
    · subst hah
      rw [stealFind, if_pos rfl] at hs
      obtain ⟨h1, h2, h3, pre, post, h4, h5⟩ := ih hs
      refine ⟨List.mem_cons.mpr (Or.inr h1), h2, h3, a :: pre, post, by simp [h4], ?_⟩
      intro j hj hjh
      rcases List.mem_cons.mp hj with rfl | hj'
      · exact absurd rfl hjh
      · exact h5 j hj' hjh
    · rw [stealFind, if_neg hah] at hs
      cases hff : firstFree (shard s a) with
      | some q =>
        rw [hff] at hs
        injection hs with hs'
        injection hs' with hi hp
        subst hi
        subst hp
        exact ⟨by simp, hah, hff, [], rest, rfl, by simp⟩
      | none =>
        rw [hff] at hs
        obtain ⟨h1, h2, h3, pre, post, h4, h5⟩ := ih hs
        refine ⟨List.mem_cons.mpr (Or.inr h1), h2, h3, a :: pre, post, by simp [h4], ?_⟩
        intro j hj hjh
        rcases List.mem_cons.mp hj with rfl | hj'
        · exact hff
        · exact h5 j hj' hjh

/-- On the fixed shard order `0, 1, ..., NBUCKET-1`, the shard the steal
loop stops in is the first (smallest-index) shard other than `h` holding a
free slot. -/
theorem stealFind_range_first {s : BCache} {h i p : Nat}
    (hs : stealFind s h (List.range NBUCKET) = some (i, p)) :
    i < NBUCKET ∧ i ≠ h ∧ firstFree (shard s i) = some p ∧
      ∀ j, j < i → j ≠ h → firstFree (shard s j) = none := by
  obtain ⟨h1, h2, h3, pre, post, h4, h5⟩ := stealFind_some_spec hs
  refine ⟨List.mem_range.mp h1, h2, h3, ?_⟩
  intro j hj hjh
  have hpw : List.Pairwise (· < ·) (List.range NBUCKET) := List.pairwise_lt_range NBUCKET
  rw [h4, List.pairwise_append] at hpw
  have hjr : j ∈ List.range NBUCKET := List.mem_range.mpr (by
    have := List.mem_range.mp h1
    omega)
  rw [h4, List.mem_append] at hjr
  rcases hjr with hjpre | hjpost
  · exact h5 j hjpre hjh
  · rcases List.mem_cons.mp hjpost with rfl | hjpost'
    · omega
    · have := (List.pairwise_cons.mp hpw.2.1).1 j hjpost'
      omega

/-- An occurrence of a value at a position other than the erased one
survives `eraseIdx`. -/
theorem getElem_mem_eraseIdx {l : List Buf} {k q : Nat} (hq : q < l.length)
    (hne : q ≠ k) : l[q] ∈ l.eraseIdx k := by
  rw [List.eraseIdx_eq_take_drop_succ]
  rcases Nat.lt_or_ge q k with hlt | hge
  · apply List.mem_append.mpr (Or.inl _)
    rw [List.mem_take_iff_getElem]
    exact ⟨q, by omega, rfl⟩
  · have hgt : k < q := by omega
    apply List.mem_append.mpr (Or.inr _)
    have hql : q - (k + 1) < (l.drop (k + 1)).length := by
      rw [List.length_drop]
      omega
    have : (l.drop (k + 1))[q - (k + 1)] = l[q] := by
      rw [List.getElem_drop]
      congr 1
      omega
    rw [← this]
    exact List.getElem_mem hql

theorem runTrace_append :
    ∀ (t₁ t₂ : List Ev) (c : Int),
      runTrace c (t₁ ++ t₂) = (runTrace c t₁).bind (fun c' => runTrace c' t₂) := by
  intro t₁
  induction t₁ with
  | nil => intro t₂ c; simp [runTrace]
  | cons e rest ih =>
    intro t₂ c
    cases e with
    | acqSleep =>
      by_cases hc : c = 0
      · simp [runTrace, hc, ih]
      · simp [runTrace, hc]
    | diskRW =>
      by_cases hc : c = 0
      · simp [runTrace, hc, ih]
      · simp [runTrace, hc]
    | acq i => simpa [runTrace] using ih t₂ (c + spinDelta (.acq i))
    | rel i => simpa [runTrace] using ih t₂ (c + spinDelta (.rel i))
    | acqB => simpa [runTrace] using ih t₂ (c + spinDelta .acqB)
    | relB => simpa [runTrace] using ih t₂ (c + spinDelta .relB)
    | acqT => simpa [runTrace] using ih t₂ (c + spinDelta .acqT)
    | relT => simpa [runTrace] using ih t₂ (c + spinDelta .relT)
    | relSleep => simpa [runTrace] using ih t₂ (c + spinDelta .relSleep)

theorem runTrace_stealTrace_of_none {s : BCache} {h : Nat} {order : List Nat}
    (hs : stealFind s h order = none) :
    ∀ c : Int, runTrace c (stealTrace s h order) = some c := by
  induction order with
  | nil => intro c; simp [stealTrace, runTrace]
  | cons a rest ih =>
    intro c
    by_cases hah : a = h
    · rw [stealFind, if_pos hah] at hs
      rw [stealTrace, if_pos hah]
      exact ih hs c
    · rw [stealFind, if_neg hah] at hs
      rw [stealTrace, if_neg hah]
      cases hff : firstFree (shard s a) with
      | some q => rw [hff] at hs; cases hs
      | none =>
        rw [hff] at hs
        simp only [runTrace, spinDelta]
        have : c + 1 + -1 = c := by omega
        rw [this]
        exact ih hs c

theorem runTrace_stealTrace_of_some {s : BCache} {h : Nat} {order : List Nat}
    {i p : Nat} (hs : stealFind s h order = some (i, p)) :
    ∀ c : Int, runTrace c (stealTrace s h order) = some (c + 1) := by
  induction order with
  | nil => simp [stealFind] at hs
  | cons a rest ih =>
    intro c
    by_cases hah : a = h
    · rw [stealFind, if_pos hah] at hs
      rw [stealTrace, if_pos hah]
      exact ih hs c
    · rw [stealFind, if_neg hah] at hs
      rw [stealTrace, if_neg hah]
      cases hff : firstFree (shard s a) with
      | some q =>
        simp [runTrace, spinDelta]
      | none =>
        rw [hff] at hs
        simp only [runTrace, spinDelta]
        have : c + 1 + -1 = c := by omega
        rw [this]
        exact ih hs c

/-- When `NBUCKET ≤ nbuf` the inner-loop condition `i < nbuf / NBUCKET`
holds forever at `i = 0`, so the loop never advances the shard index:
every slot it places goes to shard 0 and the other shards are untouched. -/
theorem binitLoop_stuck {nbuf : Nat} (hdiv : 1 ≤ nbuf / NBUCKET) :
    ∀ (fuel placed : Nat) (s s' : BCache), 0 < s.length →
      binitLoop nbuf fuel 0 placed s = some s' →
      shard s' 0 = List.replicate (nbuf - placed) buf0 ++ shard s 0 ∧
        ∀ i, i ≠ 0 → shard s' i = shard s i := by
  intro fuel
  induction fuel with
  | zero => intro placed s s' _ h; cases h
  | succ fuel ih =>
    intro placed s s' hlen h
    rw [binitLoop, if_pos (by omega)] at h
    by_cases hp : nbuf ≤ placed
    · rw [if_pos hp] at h
      cases h
      have : nbuf - placed = 0 := by omega
      simp [this]
    · rw [if_neg hp] at h
      have hlen' : 0 < (pushShard s 0 buf0).length := by
        simpa [pushShard, List.length_set] using hlen
      obtain ⟨h0, hrest⟩ := ih (placed + 1) (pushShard s 0 buf0) s' hlen' h
      constructor
      · rw [h0, pushShard, shard_set_self hlen]
        have hrepl : List.replicate (nbuf - placed) buf0 =
            List.replicate (nbuf - (placed + 1)) buf0 ++ [buf0] := by
          have : nbuf - placed = (nbuf - (placed + 1)) + 1 := by omega
          rw [this, List.replicate_succ']
        rw [hrepl, List.append_assoc]
        rfl
      · intro i hi
        rw [hrest i hi, pushShard, shard_set_ne (fun he => hi he.symm)]

theorem runTrace_acq {c : Int} {i : Nat} {t : List Ev} :
    runTrace c (.acq i :: t) = runTrace (c + 1) t := rfl

theorem runTrace_rel {c : Int} {i : Nat} {t : List Ev} :
    runTrace c (.rel i :: t) = runTrace (c + -1) t := rfl

theorem runTrace_acqB {c : Int} {t : List Ev} :
    runTrace c (.acqB :: t) = runTrace (c + 1) t := rfl

theorem runTrace_relB {c : Int} {t : List Ev} :
    runTrace c (.relB :: t) = runTrace (c + -1) t := rfl

theorem runTrace_acqT {c : Int} {t : List Ev} :
    runTrace c (.acqT :: t) = runTrace (c + 1) t := rfl

theorem runTrace_relT {c : Int} {t : List Ev} :
    runTrace c (.relT :: t) = runTrace (c + -1) t := rfl

theorem runTrace_relSleep {c : Int} {t : List Ev} :
    runTrace c (.relSleep :: t) = runTrace (c + 0) t := rfl

theorem runTrace_acqSleep {c : Int} {t : List Ev} :
    runTrace c (.acqSleep :: t) = if c = 0 then runTrace c t else none := rfl

theorem runTrace_diskRW {c : Int} {t : List Ev} :
    runTrace c (.diskRW :: t) = if c = 0 then runTrace c t else none := rfl

/-- `runTrace` of the full `bget` trace: 0 spinlocks held at the end of a
normal return; 2 spinlocks (`map.lock[h]` and `bcache.lock`) held at the
point of the pool-exhaustion panic; no sleep-lock acquisition or device
I/O ever happens with a spinlock held. -/
theorem runTrace_bgetTrace (dev blockno : Nat) (s : BCache) :
    runTrace 0 (bgetTrace dev blockno s) =
      some (match bget dev blockno s with
            | .ok _ _ _ => 0
            | .exhausted _ => 2) := by
  cases hf : hitFind dev blockno (shard s (HASH blockno)) with
  | some p =>
    simp only [bgetTrace, bget, hf]
    rfl
  | none =>
    cases hl : lruScan (shard s (HASH blockno)) with
    | some p =>
      simp only [bgetTrace, bget, hf, hl]
      rfl
    | none =>
      cases hs : stealFind s (HASH blockno) (List.range NBUCKET) with
      | some ip =>
        obtain ⟨i, p⟩ := ip
        simp only [bgetTrace, bget, hf, hl, hs]
        show runTrace 0 (Ev.acq (HASH blockno) :: Ev.acqB ::
          (stealTrace s (HASH blockno) (List.range NBUCKET) ++
            [Ev.rel i, Ev.relB, Ev.rel (HASH blockno), Ev.acqSleep])) = some 0
        rw [runTrace_acq, runTrace_acqB, runTrace_append,
          runTrace_stealTrace_of_some hs]
        norm_num [Option.bind, runTrace_rel, runTrace_relB, runTrace_acqSleep,
          runTrace, spinDelta]
      | none =>
        simp only [bgetTrace, bget, hf, hl, hs]
        show runTrace 0 (Ev.acq (HASH blockno) :: Ev.acqB ::
          (stealTrace s (HASH blockno) (List.range NBUCKET) ++ [])) = some 2
        rw [runTrace_acq, runTrace_acqB, runTrace_append,
          runTrace_stealTrace_of_none hs]
        norm_num [Option.bind, runTrace]

theorem getD_eq_getElem {l : List Buf} {p : Nat} (hp : p < l.length) :
    l.getD p default = l[p] := by
  rw [List.getD_eq_getElem?_getD, List.getElem?_eq_getElem hp]
  rfl

theorem mem_flatten_set_of_ne {s : BCache} {h0 : Nat} {L : List Buf} {b : Buf}
    {j : Nat} (hj : j < s.length) (hjh : j ≠ h0) (hb : b ∈ s[j]) :
    b ∈ (s.set h0 L).flatten := by
  apply List.mem_flatten.mpr
  have hlt : j < (s.set h0 L).length := by
    rw [List.length_set]
    exact hj
  refine ⟨(s.set h0 L)[j], List.getElem_mem hlt, ?_⟩
  rw [List.getElem_set_ne (fun he => hjh he.symm) hlt]
  exact hb

theorem mem_flatten_set_self {s : BCache} {h0 : Nat} {L : List Buf} {b : Buf}
    (hh : h0 < s.length) (hb : b ∈ L) : b ∈ (s.set h0 L).flatten := by
  apply List.mem_flatten.mpr
  have hlt : h0 < (s.set h0 L).length := by
    rw [List.length_set]
    exact hh
  refine ⟨(s.set h0 L)[h0], List.getElem_mem hlt, ?_⟩
  rw [List.getElem_set_self hlt]
  exact hb

theorem mem_set_of_getElem_ne {l : List Buf} {q q' : Nat} {a : Buf}
    (hq' : q' < l.length) (hne : q' ≠ q) : l[q'] ∈ l.set q a := by
  have hlt : q' < (l.set q a).length := by
    rw [List.length_set]
    exact hq'
  have he := List.getElem_set_ne (fun he => hne he.symm) (l := l) (a := a) hlt
  rw [← he]
  exact List.getElem_mem hlt

theorem mem_set_self {l : List Buf} {q : Nat} {a : Buf} (hq : q < l.length) :
    a ∈ l.set q a := by
  have hlt : q < (l.set q a).length := by
    rw [List.length_set]
    exact hq
  have hm := List.getElem_mem hlt
  rwa [List.getElem_set_self hlt] at hm

/-! ## Claim theorems -/

/-- Claim C1 (code bug): the spec says `binit` distributes the `NBUF` slots
round-robin across the `NBUCKET` shards, but the source's inner loop tests
`i < NBUF / NBUCKET` instead of `j < NBUF / NBUCKET`, so the shard index
never advances: whenever `NBUCKET ≤ nbuf` and the loop terminates, every
slot has been linked into shard 0 and every other shard is empty. -/
theorem binit_all_slots_in_shard_zero (nbuf fuel : Nat) (s' : BCache)
    (hn : NBUCKET ≤ nbuf) (hb : binit nbuf fuel = some s') :
    shard s' 0 = List.replicate nbuf buf0 ∧ ∀ i, i ≠ 0 → shard s' i = [] := by
  have h13 : 0 < NBUCKET := by norm_num [NBUCKET]
  have hdiv : 1 ≤ nbuf / NBUCKET := (Nat.one_le_div_iff h13).mpr hn
  have hlen : 0 < initMap.length := by simp [initMap, NBUCKET]
  obtain ⟨h0, hr⟩ := binitLoop_stuck hdiv fuel 0 initMap s' hlen hb
  have hinit : ∀ i, shard initMap i = [] := by
    intro i
    rw [shard, initMap, List.getD_eq_getElem?_getD, List.getElem?_replicate]
    split <;> rfl
  constructor
  · rw [h0, hinit 0]
    simp
  · intro i hi
    rw [hr i hi, hinit i]

/-- Witness for C1: running `binit` on a 30-slot pool (the xv6 value of
`NBUF`) with enough fuel terminates with all 30 slots in shard 0 and
shard 1 empty. -/
theorem binit_all_slots_in_shard_zero_w :
    shard s30 0 = List.replicate 30 buf0 ∧ shard s30 1 = [] := by
  have h := binit_all_slots_in_shard_zero 30 31 s30 (by norm_num [NBUCKET])
    (by decide)
  exact ⟨h.1, h.2 1 (by decide)⟩

/-- Claim C2 counterexample: `bunpin` on a slot with `refcnt = 1` brings the
count to 0 but does not stamp the recency timestamp: the timestamp keeps its
old value 5 (in particular it does not become a current tick value such as
99), contradicting the claim that both decrement paths stamp it. -/
theorem bunpin_does_not_stamp_cex :
    (bunpin bRel).refcnt = 0 ∧ (bunpin bRel).timestamp = 5 ∧
      (bunpin bRel).timestamp ≠ 99 := by decide

/-- Claim C2 (amended): of the two decrement operations, only `brelse`
stamps `timestamp` with the current tick value when the count reaches 0;
`bunpin` decrements the count and leaves the timestamp untouched. -/
theorem brelse_stamps_bunpin_does_not (ticks : Nat) (b : Buf)
    (h1 : b.refcnt = 1) :
    brelse true ticks b = .ok { b with refcnt := 0, timestamp := ticks } ∧
      bunpin b = { b with refcnt := 0 } := by
  have hmod : (b.refcnt + (UINTMOD - 1)) % UINTMOD = 0 := by
    rw [h1]
    norm_num [UINTMOD]
  constructor
  · simp [brelse, hmod]
  · simp [bunpin, hmod]

/-- Witness for the amended C2 at a concrete slot and tick value. -/
theorem brelse_stamps_bunpin_does_not_w :
    brelse true 42 bRel = .ok { bRel with refcnt := 0, timestamp := 42 } ∧
      bunpin bRel = { bRel with refcnt := 0 } :=
  brelse_stamps_bunpin_does_not 42 bRel (by decide)

/-- Claim C6: `bwrite` and `brelse` panic (return an error) exactly when the
caller does not hold the slot's sleep lock, and never fail when it does. -/
theorem bwrite_brelse_protocol (b : Buf) (ticks : Nat) :
    bwrite false b = .error "bwrite" ∧
      brelse false ticks b = .error "brelse" ∧
      bwrite true b = .ok b ∧
      ∃ b', brelse true ticks b = .ok b' := by
  refine ⟨rfl, rfl, rfl, ?_⟩
  by_cases hz : (b.refcnt + (UINTMOD - 1)) % UINTMOD = 0
  · refine ⟨{ b with refcnt := (b.refcnt + (UINTMOD - 1)) % UINTMOD, timestamp := ticks }, ?_⟩
    simp [brelse, hz]
  · refine ⟨{ b with refcnt := (b.refcnt + (UINTMOD - 1)) % UINTMOD }, ?_⟩
    simp [brelse, hz]

/-- Claim C8: when `bget` fails with the pool-exhaustion panic, the cache
state it reports is exactly the state it was called on: nothing was linked,
unlinked or overwritten by the failed call. -/
theorem bget_exhausted_state_unchanged (dev blockno : Nat) (s s₀ : BCache)
    (h : bget dev blockno s = .exhausted s₀) : s₀ = s := by
  cases hf : hitFind dev blockno (shard s (HASH blockno)) with
  | some p =>
    simp only [bget, hf, reduceCtorEq] at h
  | none =>
    cases hl : lruScan (shard s (HASH blockno)) with
    | some p =>
      simp only [bget, hf, hl, reduceCtorEq] at h
    | none =>
      cases hs : stealFind s (HASH blockno) (List.range NBUCKET) with
      | some ip =>
        obtain ⟨i, p⟩ := ip
        simp only [bget, hf, hl, hs, reduceCtorEq] at h
      | none =>
        simp only [bget, hf, hl, hs] at h
        injection h with h'
        exact h'.symm

/-- Witness for C8 at a fully pinned pool. -/
theorem bget_exhausted_state_unchanged_w : sPinned = sPinned :=
  bget_exhausted_state_unchanged 0 0 sPinned sPinned (by decide)

/-- Claim C10 counterexample: after the unsigned wraparound
(`bunpin` at `refcnt = 0` gives `refcnt = 2^32 - 1`), the slot is not
excluded from eviction forever: a single subsequent `bpin` wraps the count
back to 0, and the slot is again selected by both eviction scans. -/
theorem bunpin_wraparound_cex :
    (bunpin bFree).refcnt = UINTMOD - 1 ∧
      (bpin (bunpin bFree)).refcnt = 0 ∧
      lruScan [bpin (bunpin bFree)] = some 0 ∧
      firstFree [bpin (bunpin bFree)] = some 0 := by decide

/-- Claim C10 (amended): `bunpin` decrements unconditionally, so on a slot
with `refcnt = 0` the count wraps to `2^32 - 1`; while the count stays
nonzero the slot is not an eviction candidate (neither scan selects it),
but one further `bpin` wraps the count back to 0. -/
theorem bunpin_underflow (b : Buf) (h0 : b.refcnt = 0) :
    (bunpin b).refcnt = UINTMOD - 1 ∧
      firstFree [bunpin b] = none ∧
      lruScan [bunpin b] = none ∧
      (bpin (bunpin b)).refcnt = 0 := by
  have h1 : (bunpin b).refcnt = UINTMOD - 1 := by
    simp [bunpin, h0]
  have hne : (bunpin b).refcnt ≠ 0 := by
    rw [h1]
    norm_num [UINTMOD]
  refine ⟨h1, ?_, ?_, ?_⟩
  · simp [firstFree, hne]
  · simp [lruScan, lruScanAux, hne]
  · rw [bpin, h1]
    norm_num [UINTMOD]

/-- Witness for the amended C10 at a concrete evictable slot. -/
theorem bunpin_underflow_w :
    (bunpin bFree).refcnt = UINTMOD - 1 ∧
      firstFree [bunpin bFree] = none ∧
      lruScan [bunpin bFree] = none ∧
      (bpin (bunpin bFree)).refcnt = 0 :=
  bunpin_underflow bFree (by decide)

/-- Claim C3 counterexample: shard 0 of `sSentinel` holds an evictable slot
(`refcnt = 0`) and the lookup for (0, 0) misses, yet `bget` does not select
and return that slot — it panics instead, because the slot's timestamp
equals the scan's initial sentinel `0xffffffff` and the strict comparison
`timestamp < min` never records it. -/
theorem bget_sentinel_timestamp_cex :
    ((shard sSentinel 0).any fun b => b.refcnt == 0) = true ∧
      hitFind 0 0 (shard sSentinel 0) = none ∧
      bget 0 0 sSentinel = .exhausted sSentinel := by decide

/-- Claim C3 (amended): on a miss, when the home shard holds a slot with
`refcnt = 0` whose timestamp is below the sentinel `2^32 - 1`, `bget`
selects an evictable slot of that shard whose timestamp is minimal among
the shard's evictable slots, overwrites its identity, clears `valid`, sets
`refcnt = 1`, and returns it; other shards are untouched. -/
theorem bget_local_lru (dev blockno : Nat) (s : BCache)
    (hlen : s.length = NBUCKET)
    (hmiss : hitFind dev blockno (shard s (HASH blockno)) = none)
    (hloc : ∃ b ∈ shard s (HASH blockno),
      b.refcnt = 0 ∧ b.timestamp < UINTMOD - 1) :
    ∃ p s',
      bget dev blockno s = .ok s' (HASH blockno) p ∧
      p < (shard s (HASH blockno)).length ∧
      ((shard s (HASH blockno)).getD p default).refcnt = 0 ∧
      (∀ b ∈ shard s (HASH blockno), b.refcnt = 0 →
        ((shard s (HASH blockno)).getD p default).timestamp ≤ b.timestamp) ∧
      shard s' (HASH blockno) =
        (shard s (HASH blockno)).set p
          { (shard s (HASH blockno)).getD p default with
              dev := dev, blockno := blockno, valid := false, refcnt := 1 } ∧
      (∀ j, j ≠ HASH blockno → shard s' j = shard s j) := by
  have hne : lruScan (shard s (HASH blockno)) ≠ none := by
    intro hn
    rw [lruScan_none_iff] at hn
    obtain ⟨b, hb, hrc, hts⟩ := hloc
    exact hn b hb hrc hts
  cases hl : lruScan (shard s (HASH blockno)) with
  | none => exact absurd hl hne
  | some p =>
    obtain ⟨hp, hrc, _, hmin⟩ := lruScan_some_spec hl
    have hh : HASH blockno < s.length := by
      rw [hlen]
      exact Nat.mod_lt _ (by norm_num [NBUCKET])
    refine ⟨p, s.set (HASH blockno) ((shard s (HASH blockno)).set p
        (evictAssign dev blockno ((shard s (HASH blockno)).getD p default))),
      ?_, hp, hrc, hmin, ?_, ?_⟩
    · simp only [bget, hmiss, hl]
    · rw [shard_set_self hh]
      rfl
    · intro j hj
      exact shard_set_ne (fun he => hj he.symm) _

/-- Witness for the amended C3: a concrete miss on a shard holding two
evictable slots with distinct timestamps. -/
theorem bget_local_lru_w :
    ∃ p s',
      bget 7 0 sLocal = .ok s' (HASH 0) p ∧
      p < (shard sLocal (HASH 0)).length ∧
      ((shard sLocal (HASH 0)).getD p default).refcnt = 0 ∧
      (∀ b ∈ shard sLocal (HASH 0), b.refcnt = 0 →
        ((shard sLocal (HASH 0)).getD p default).timestamp ≤ b.timestamp) ∧
      shard s' (HASH 0) =
        (shard sLocal (HASH 0)).set p
          { (shard sLocal (HASH 0)).getD p default with
              dev := 7, blockno := 0, valid := false, refcnt := 1 } ∧
      (∀ j, j ≠ HASH 0 → shard s' j = shard sLocal j) :=
  bget_local_lru 7 0 sLocal (by decide) (by decide) (by decide)

/-- Claim C5 counterexample: shard 0 of `sSentinel2` holds an evictable
slot (`refcnt = 0`), yet the lookup for (0, 0) fails fatally with pool
exhaustion, because the slot's sentinel timestamp disqualifies it from the
local scan and the steal loop skips the home shard. -/
theorem bget_exhausted_despite_evictable_cex :
    ((shard sSentinel2 0).any fun b => b.refcnt == 0) = true ∧
      bget 0 0 sSentinel2 = .exhausted sSentinel2 := by decide

/-- Claim C5 (amended): `bget` fails fatally (pool exhaustion) iff the
lookup misses, the home shard has no slot with `refcnt = 0` and timestamp
below the sentinel `2^32 - 1`, and no other shard has any slot with
`refcnt = 0`.  In particular, an evictable slot in the home shard whose
timestamp equals `2^32 - 1` does not prevent the panic. -/
theorem bget_exhausted_characterization (dev blockno : Nat) (s : BCache) :
    (∃ s₀, bget dev blockno s = .exhausted s₀) ↔
      ((∀ b ∈ shard s (HASH blockno), ¬(b.dev = dev ∧ b.blockno = blockno)) ∧
       (∀ b ∈ shard s (HASH blockno), b.refcnt = 0 →
          ¬ b.timestamp < UINTMOD - 1) ∧
       (∀ j, j < NBUCKET → j ≠ HASH blockno →
          ∀ b ∈ shard s j, b.refcnt ≠ 0)) := by
  constructor
  · rintro ⟨s₀, h⟩
    cases hf : hitFind dev blockno (shard s (HASH blockno)) with
    | some p =>
      simp only [bget, hf, reduceCtorEq] at h
    | none =>
      cases hl : lruScan (shard s (HASH blockno)) with
      | some p =>
        simp only [bget, hf, hl, reduceCtorEq] at h
      | none =>
        cases hs : stealFind s (HASH blockno) (List.range NBUCKET) with
        | some ip =>
          obtain ⟨i, p⟩ := ip
          simp only [bget, hf, hl, hs, reduceCtorEq] at h
        | none =>
          refine ⟨hitFind_none_iff.mp hf, lruScan_none_iff.mp hl, ?_⟩
          intro j hj hjh b hb
          have hfn := stealFind_none_iff.mp hs j (List.mem_range.mpr hj) hjh
          rw [firstFree_none_iff] at hfn
          exact hfn b hb
  · rintro ⟨h1, h2, h3⟩
    refine ⟨s, ?_⟩
    have hf : hitFind dev blockno (shard s (HASH blockno)) = none :=
      hitFind_none_iff.mpr h1
    have hl : lruScan (shard s (HASH blockno)) = none :=
      lruScan_none_iff.mpr h2
    have hs : stealFind s (HASH blockno) (List.range NBUCKET) = none :=
      stealFind_none_iff.mpr (fun i hi hih =>
        firstFree_none_iff.mpr (h3 i (List.mem_range.mp hi) hih))
    simp only [bget, hf, hl, hs]

/-- Claim C4: on a miss when the home shard has no slot with `refcnt = 0`,
`bget` walks the other shards in the fixed order `0, 1, ..., NBUCKET - 1`,
takes the first slot with `refcnt = 0` it finds (no timestamp comparison:
every earlier shard has no free slot and every earlier position in the
chosen shard is pinned), unlinks it from its source shard and links it at
the head of the home shard's list before assigning the new identity. -/
theorem bget_steal_first_free (dev blockno : Nat) (s : BCache)
    (hlen : s.length = NBUCKET)
    (hmiss : hitFind dev blockno (shard s (HASH blockno)) = none)
    (hnofree : ∀ b ∈ shard s (HASH blockno), b.refcnt ≠ 0)
    (hsome : ∃ j, j < NBUCKET ∧ j ≠ HASH blockno ∧
      ∃ b ∈ shard s j, b.refcnt = 0) :
    ∃ i p s',
      stealFind s (HASH blockno) (List.range NBUCKET) = some (i, p) ∧
      i < NBUCKET ∧ i ≠ HASH blockno ∧
      ((shard s i).getD p default).refcnt = 0 ∧
      (∀ q, q < p → ((shard s i).getD q default).refcnt ≠ 0) ∧
      (∀ j, j < i → j ≠ HASH blockno → ∀ b ∈ shard s j, b.refcnt ≠ 0) ∧
      bget dev blockno s = .ok s' (HASH blockno) 0 ∧
      shard s' i = (shard s i).eraseIdx p ∧
      shard s' (HASH blockno) =
        { (shard s i).getD p default with
            dev := dev, blockno := blockno, valid := false, refcnt := 1 }
          :: shard s (HASH blockno) ∧
      (∀ j, j ≠ i → j ≠ HASH blockno → shard s' j = shard s j) := by
  have hl : lruScan (shard s (HASH blockno)) = none := by
    rw [lruScan_none_iff]
    intro b hb hrc
    exact absurd hrc (hnofree b hb)
  have hsf : stealFind s (HASH blockno) (List.range NBUCKET) ≠ none := by
    intro hn
    rw [stealFind_none_iff] at hn
    obtain ⟨j, hj1, hj2, b, hb, hrc⟩ := hsome
    have hfn := hn j (List.mem_range.mpr hj1) hj2
    rw [firstFree_none_iff] at hfn
    exact hfn b hb hrc
  cases hs : stealFind s (HASH blockno) (List.range NBUCKET) with
  | none => exact absurd hs hsf
  | some ip =>
    obtain ⟨i, p⟩ := ip
    obtain ⟨hi, hih, hff, hfirst⟩ := stealFind_range_first hs
    obtain ⟨hp, hrc, hqlt⟩ := firstFree_some_spec hff
    have hhlt : HASH blockno < s.length := by
      rw [hlen]
      exact Nat.mod_lt _ (by norm_num [NBUCKET])
    have hilt : i < s.length := by rw [hlen]; exact hi
    have hihs : HASH blockno ≠ i := fun he => hih he.symm
    refine ⟨i, p, (s.set i ((shard s i).eraseIdx p)).set (HASH blockno)
        (evictAssign dev blockno ((shard s i).getD p default) ::
          shard (s.set i ((shard s i).eraseIdx p)) (HASH blockno)),
      rfl, hi, hih, hrc, hqlt, ?_, ?_, ?_, ?_, ?_⟩
    · intro j hj hjh b hb hrc'
      have hfn := hfirst j hj hjh
      rw [firstFree_none_iff] at hfn
      exact hfn b hb hrc'
    · simp only [bget, hmiss, hl, hs]
    · rw [shard_set_ne hihs, shard_set_self hilt]
    · have hlen1 : HASH blockno < (s.set i ((shard s i).eraseIdx p)).length := by
        rw [List.length_set]
        exact hhlt
      rw [shard_set_self hlen1, shard_set_ne hih]
      rfl
    · intro j hji hjh
      rw [shard_set_ne (fun he => hjh he.symm),
        shard_set_ne (fun he => hji he.symm)]

/-- Witness for C4: the home shard of `sSteal` is fully pinned and shard 1
holds the free slot that gets stolen. -/
theorem bget_steal_first_free_w :
    ∃ i p s',
      stealFind sSteal (HASH 0) (List.range NBUCKET) = some (i, p) ∧
      i < NBUCKET ∧ i ≠ HASH 0 ∧
      ((shard sSteal i).getD p default).refcnt = 0 ∧
      (∀ q, q < p → ((shard sSteal i).getD q default).refcnt ≠ 0) ∧
      (∀ j, j < i → j ≠ HASH 0 → ∀ b ∈ shard sSteal j, b.refcnt ≠ 0) ∧
      bget 7 0 sSteal = .ok s' (HASH 0) 0 ∧
      shard s' i = (shard sSteal i).eraseIdx p ∧
      shard s' (HASH 0) =
        { (shard sSteal i).getD p default with
            dev := 7, blockno := 0, valid := false, refcnt := 1 }
          :: shard sSteal (HASH 0) ∧
      (∀ j, j ≠ i → j ≠ HASH 0 → shard s' j = shard sSteal j) :=
  bget_steal_first_free 7 0 sSteal (by decide) (by decide) (by decide)
    ⟨1, by decide, by decide, by decide⟩

/-- Claim C7: a slot with `refcnt > 0` is never the local eviction
candidate (the LRU scan only returns slots with `refcnt = 0`), never the
steal candidate (the cross-shard scan only returns slots with
`refcnt = 0`), and no completed `bget` changes the identity of a slot
whose `refcnt` is positive: every such slot's (dev, blockno) pair is still
present in the resulting cache. -/
theorem eviction_safety :
    (∀ (l : List Buf) (p : Nat), lruScan l = some p →
        (l.getD p default).refcnt = 0) ∧
    (∀ (s : BCache) (h i p : Nat),
        stealFind s h (List.range NBUCKET) = some (i, p) →
        ((shard s i).getD p default).refcnt = 0) ∧
    (∀ (dev blockno : Nat) (s r : BCache) (hh pp : Nat),
        s.length = NBUCKET →
        bget dev blockno s = .ok r hh pp →
        ∀ b ∈ s.flatten, 0 < b.refcnt →
          ∃ b' ∈ r.flatten, b'.dev = b.dev ∧ b'.blockno = b.blockno) := by
  refine ⟨?_, ?_, ?_⟩
  · intro l p hl
    exact (lruScan_some_spec hl).2.1
  · intro s h i p hs
    obtain ⟨_, _, hff, _⟩ := stealFind_some_spec hs
    exact (firstFree_some_spec hff).2.1
  · intro dev blockno s r hh pp hlen hok b hb hrc
    obtain ⟨lst, hlst, hbl⟩ := List.mem_flatten.mp hb
    obtain ⟨j, hj, rfl⟩ := List.mem_iff_getElem.mp hlst
    have hhlt : HASH blockno < s.length := by
      rw [hlen]
      exact Nat.mod_lt _ (by norm_num [NBUCKET])
    have hshard : shard s (HASH blockno) = s[HASH blockno] :=
      shard_eq_getElem hhlt
    cases hf : hitFind dev blockno (shard s (HASH blockno)) with
    | some q =>
      simp only [bget, hf] at hok
      injection hok with e1 e2 e3
      subst e1
      obtain ⟨hqlen, _, _⟩ := hitFind_some_spec hf
      by_cases hjh : j = HASH blockno
      · subst hjh
        have hbl' : b ∈ shard s (HASH blockno) := by
          rw [hshard]
          exact hbl
        obtain ⟨q', hq', hbq⟩ := List.mem_iff_getElem.mp hbl'
        by_cases hqq : q' = q
        · subst hqq
          have hbd : (shard s (HASH blockno)).getD q' default = b := by
            rw [getD_eq_getElem hq']
            exact hbq
          refine ⟨_, mem_flatten_set_self hhlt (mem_set_self hqlen), ?_, ?_⟩
          · rw [hbd]
          · rw [hbd]
        · exact ⟨b, mem_flatten_set_self hhlt
            (hbq ▸ mem_set_of_getElem_ne hq' hqq), rfl, rfl⟩
      · exact ⟨b, mem_flatten_set_of_ne hj hjh hbl, rfl, rfl⟩
    | none =>
      cases hl : lruScan (shard s (HASH blockno)) with
      | some q =>
        simp only [bget, hf, hl] at hok
        injection hok with e1 e2 e3
        subst e1
        obtain ⟨hqlen, hrc0, _, _⟩ := lruScan_some_spec hl
        by_cases hjh : j = HASH blockno
        · subst hjh
          have hbl' : b ∈ shard s (HASH blockno) := by
            rw [hshard]
            exact hbl
          obtain ⟨q', hq', hbq⟩ := List.mem_iff_getElem.mp hbl'
          have hqq : q' ≠ q := by
            intro he
            subst he
            have hbd : (shard s (HASH blockno)).getD q' default = b := by
              rw [getD_eq_getElem hq']
              exact hbq
            rw [hbd] at hrc0
            omega
          exact ⟨b, mem_flatten_set_self hhlt
            (hbq ▸ mem_set_of_getElem_ne hq' hqq), rfl, rfl⟩
        · exact ⟨b, mem_flatten_set_of_ne hj hjh hbl, rfl, rfl⟩
      | none =>
        cases hs : stealFind s (HASH blockno) (List.range NBUCKET) with
        | none =>
          simp only [bget, hf, hl, hs, reduceCtorEq] at hok
        | some iq =>
          obtain ⟨i, q⟩ := iq
          simp only [bget, hf, hl, hs] at hok
          injection hok with e1 e2 e3
          subst e1
          obtain ⟨hi, hih, hff, _⟩ := stealFind_range_first hs
          obtain ⟨hqlen, hrc0, _⟩ := firstFree_some_spec hff
          have hilt : i < s.length := by
            rw [hlen]
            exact hi
          by_cases hjh : j = HASH blockno
          · subst hjh
            have hbl' : b ∈ shard s (HASH blockno) := by
              rw [hshard]
              exact hbl
            have hh1 : HASH blockno <
                (s.set i ((shard s i).eraseIdx q)).length := by
              rw [List.length_set]
              exact hhlt
            have htail :
                shard (s.set i ((shard s i).eraseIdx q)) (HASH blockno) =
                  shard s (HASH blockno) :=
              shard_set_ne hih _
            refine ⟨b, mem_flatten_set_self hh1 (List.mem_cons.mpr (Or.inr ?_)),
              rfl, rfl⟩
            rw [htail]
            exact hbl'
          · by_cases hji : j = i
            · subst hji
              have hbl' : b ∈ shard s j := by
                rw [shard_eq_getElem hj]
                exact hbl
              obtain ⟨q', hq', hbq⟩ := List.mem_iff_getElem.mp hbl'
              have hqq : q' ≠ q := by
                intro he
                subst he
                have hbd : (shard s j).getD q' default = b := by
                  rw [getD_eq_getElem hq']
                  exact hbq
                rw [hbd] at hrc0
                omega
              have hmem : b ∈ (shard s j).eraseIdx q :=
                hbq ▸ getElem_mem_eraseIdx hq' hqq
              have hj1 : j < (s.set j ((shard s j).eraseIdx q)).length := by
                rw [List.length_set]
                exact hj
              have hs1j : (s.set j ((shard s j).eraseIdx q))[j] =
                  (shard s j).eraseIdx q := List.getElem_set_self hj1
              refine ⟨b, mem_flatten_set_of_ne hj1 hjh ?_, rfl, rfl⟩
              rw [hs1j]
              exact hmem
            · have hj1 : j < (s.set i ((shard s i).eraseIdx q)).length := by
                rw [List.length_set]
                exact hj
              have hs1j : (s.set i ((shard s i).eraseIdx q))[j] = s[j] :=
                List.getElem_set_ne (fun he => hji he.symm) hj1
              refine ⟨b, mem_flatten_set_of_ne hj1 hjh ?_, rfl, rfl⟩
              rw [hs1j]
              exact hbl

/-- Witness for C7: the three parts instantiated on concrete caches: the
LRU candidate of `sLocal`'s shard 0, the steal candidate found in shard 1
of `sSteal`, and identity preservation of `sSteal`'s pinned slot across the
stealing `bget`. -/
theorem eviction_safety_w :
    ((shard sLocal 0).getD 1 default).refcnt = 0 ∧
      ((shard sSteal 1).getD 0 default).refcnt = 0 ∧
      (∃ b' ∈ rSteal.flatten, b'.dev = 1 ∧ b'.blockno = 2) := by
  refine ⟨eviction_safety.1 (shard sLocal 0) 1 (by decide),
    eviction_safety.2.1 sSteal 0 1 0 (by decide), ?_⟩
  exact eviction_safety.2.2 7 0 sSteal rSteal 0 0 (by decide) (by decide)
    (Buf.mk 1 2 true 1 9) (by decide) (by decide)

/-- Claim C9: along every execution trace of `bget`, `brelse`, `bread` and
`bwrite`, the sleep lock is never acquired and device I/O is never issued
while any spinlock (shard lock, `bcache.lock`, `tickslock`) is held
(`runTrace` succeeds), and every completing operation has released all the
spinlocks it took (final count 0). -/
theorem lock_discipline (dev blockno : Nat) (s : BCache) (holding : Bool)
    (b : Buf) :
    (runTrace 0 (bgetTrace dev blockno s)).isSome = true ∧
    (∀ r h p, bget dev blockno s = .ok r h p →
        runTrace 0 (bgetTrace dev blockno s) = some 0) ∧
    runTrace 0 (brelseTrace holding b) = some 0 ∧
    (runTrace 0 (breadTrace dev blockno s)).isSome = true ∧
    runTrace 0 (bwriteTrace holding) = some 0 := by
  have hbg := runTrace_bgetTrace dev blockno s
  have hrel : runTrace 0 (brelseTrace holding b) = some 0 := by
    cases holding with
    | false => rfl
    | true =>
      by_cases hz : (b.refcnt + (UINTMOD - 1)) % UINTMOD = 0
      · simp only [brelseTrace, Bool.not_true, if_neg, if_pos hz]
        rfl
      · simp only [brelseTrace, Bool.not_true, if_neg, if_neg hz]
        rfl
  have hwr : runTrace 0 (bwriteTrace holding) = some 0 := by
    cases holding with
    | false => rfl
    | true => rfl
  refine ⟨?_, ?_, hrel, ?_, hwr⟩
  · rw [hbg]
    rfl
  · intro r h p hok
    rw [hbg, hok]
  · cases hres : bget dev blockno s with
    | ok r h p =>
      have hbg0 : runTrace 0 (bgetTrace dev blockno s) = some 0 := by
        rw [hbg, hres]
      rw [breadTrace, hres, runTrace_append, hbg0]
      cases hv : ((shard r h).getD p default).valid with
      | true =>
        rw [List.getD_eq_getElem?_getD] at hv
        simp [hv, runTrace]
      | false =>
        rw [List.getD_eq_getElem?_getD] at hv
        simp [hv, runTrace]
    | exhausted s₀ =>
      rw [breadTrace, hres, runTrace_append, hbg, hres]
      rfl

/-- Witness for C9's quantified conjunct at a concrete completing lookup. -/
theorem lock_discipline_w :
    runTrace 0 (bgetTrace 7 0 sSteal) = some 0 ∧
      runTrace 0 (brelseTrace true bRel) = some 0 := by
  have h := lock_discipline 7 0 sSteal true bRel
  exact ⟨h.2.1 ([Buf.mk 7 0 false 1 4, Buf.mk 1 2 true 1 9] ::
    List.replicate 12 []) 0 0 (by decide), h.2.2.1⟩

end Bio
